import Mathlib

/-!
Verification of the patch-application engine (`tools/utils.py`, `tools/files.py`).

The Python source is shallowly embedded: file contents and diff texts are
`List Char`, Python `list` mutations become pure functions with Python's
index-normalisation semantics (negative indices, clamping), `str.splitlines`
is embedded with its full line-break character set, the universal-newlines
translation performed by text-mode `open(..., 'r')` (default `newline=None`)
is applied to what the fallback applier reads, and the regular
expression `^@@ -(\d+),(\d+) \+(\d+),(\d+) @@` is embedded as a prefix
parser.  I/O and exceptions are embedded by explicit oracles: each point in
the source where a Python exception can arise (reading the file, writing the
file, creating or writing the temporary patch file, invoking the external
tool) is represented by an `Option`/sum-typed oracle field, and `try/except`
becomes a `match` on the oracle outcome.
-/

namespace UDiff

/-- Convert a Lean string literal to the `List Char` representation used
throughout the embedding. -/
def lchars (s : String) : List Char :=
  s.toList

/-! ## Python `list` primitives

`pySliceBound` is CPython's index normalisation for slice bounds and for
`list.insert` (negative indices count from the end, then both ends clamp). -/

/-- Normalise a Python index `i` against a list length `n`:
negative indices are shifted by `n` and clamped below at `0`;
non-negative indices are clamped above at `n`. -/
def pySliceBound (n : Nat) (i : Int) : Nat :=
  if i < 0 then (i + n).toNat else min i.toNat n

/-- Python `del l[start:stop]` / `l[start:stop] = []` (step 1):
removes the elements of the normalised half-open range. -/
def pyDelSlice (l : List α) (start stop : Int) : List α :=
  l.take (pySliceBound l.length start) ++
    l.drop (max (pySliceBound l.length stop) (pySliceBound l.length start))

/-- Python `l.insert(i, x)` with CPython's index normalisation. -/
def pyInsert (l : List α) (i : Int) (x : α) : List α :=
  l.take (pySliceBound l.length i) ++ x :: l.drop (pySliceBound l.length i)

/-! ## Python `str.splitlines` -/

/-- The line-break characters recognised by Python `str.splitlines`. -/
def isLineBreak (c : Char) : Bool :=
  c == '\n' || c == '\r' || c == '\x0b' || c == '\x0c' ||
  c == '\x1c' || c == '\x1d' || c == '\x1e' || c == '\x85' ||
  c == '\u2028' || c == '\u2029'

/-- Worker for `splitlines`: `acc` is the current line being accumulated and
`prevCR` records whether the previous character was a `'\r'`, so that a
`"\r\n"` pair counts as a single terminator.  A terminator at end of input
does not produce a trailing empty line. -/
def splitlinesGo : List Char → Bool → List Char → List (List Char)
  | [], _, acc => if acc.isEmpty then [] else [acc]
  | c :: rest, prevCR, acc =>
    if prevCR && c == '\n' then splitlinesGo rest false acc
    else if isLineBreak c then acc :: splitlinesGo rest (c == '\r') []
    else splitlinesGo rest false (acc ++ [c])

/-- Python `s.splitlines()`. -/
def splitlines (s : List Char) : List (List Char) :=
  splitlinesGo s false []

/-- Python `s.endswith('\n')` on the `List Char` representation. -/
def endsWithNl (s : List Char) : Bool :=
  s.getLast? == some '\n'

/-- Worker for `univNewlines`: the universal-newlines scan.  `prevCR`
records whether the previous character was a `'\r'`, so that the `'\n'` of a
`"\r\n"` pair is consumed together with it. -/
def univNewlinesGo : List Char → Bool → List Char
  | [], _ => []
  | c :: rest, prevCR =>
    if prevCR && c == '\n' then univNewlinesGo rest false
    else if c == '\r' then '\n' :: univNewlinesGo rest true
    else c :: univNewlinesGo rest false

/-- The universal-newlines translation applied by text-mode
`open(file_path, 'r', encoding='utf-8')` (default `newline=None`) when
`_apply_diff_manually` reads the file: every `"\r\n"` pair and every lone
`'\r'` in the decoded stream becomes a single `'\n'`; no other character is
affected. -/
def univNewlines (s : List Char) : List Char :=
  univNewlinesGo s false

/-- Python `'\n'.join(lines)` on the `List Char` representation. -/
def joinLines : List (List Char) → List Char
  | [] => []
  | l :: ls => if ls.isEmpty then l else l ++ '\n' :: joinLines ls

/-! ## The hunk-header regular expression

`re.match(r'^@@ -(\d+),(\d+) \+(\d+),(\d+) @@', line)` is a prefix match;
each `\d+` is greedy and followed by a non-digit literal, so maximal munch
is exact. -/

/-- Numeric value of the digit string captured by a `(\d+)` group,
as computed by Python `int()`. -/
def natOfDigits (ds : List Char) : Nat :=
  ds.foldl (fun acc c => 10 * acc + (c.toNat - 48)) 0

/-- Consume an expected literal character sequence; `none` when the input
does not start with it. -/
def expectChars (pre l : List Char) : Option (List Char) :=
  if pre.isPrefixOf l then some (l.drop pre.length) else none

/-- Consume a maximal nonempty digit run (one `(\d+)` group). -/
def parseDigits (l : List Char) : Option (Nat × List Char) :=
  if (l.takeWhile Char.isDigit).isEmpty then none
  else some (natOfDigits (l.takeWhile Char.isDigit), l.dropWhile Char.isDigit)

/-- The regex `^@@ -(\d+),(\d+) \+(\d+),(\d+) @@` as a prefix matcher,
returning the four captured groups `(old_start, old_count, new_start,
new_count)` already converted by `int()`. -/
def matchHunkHeader (l : List Char) : Option (Nat × Nat × Nat × Nat) :=
  (expectChars [ '@', '@', ' ', '-'] l).bind fun r1 =>
  (parseDigits r1).bind fun p1 =>
  (expectChars [ ','] p1.2).bind fun r2 =>
  (parseDigits r2).bind fun p2 =>
  (expectChars [ ' ', '+'] p2.2).bind fun r3 =>
  (parseDigits r3).bind fun p3 =>
  (expectChars [ ','] p3.2).bind fun r4 =>
  (parseDigits r4).bind fun p4 =>
  (expectChars [ ' ', '@', '@'] p4.2).map fun _ =>
  (p1.1, p2.1, p3.1, p4.1)

/-! ## `_extract_hunks` -/

/-- A hunk as produced by `_extract_hunks`: the tuple
`(start_line, removed_count, added_lines)`. -/
structure Hunk where
  newStart : Nat
  removedCount : Nat
  lines : List (List Char)
deriving DecidableEq

/-- One pass of the `while` loop of `_extract_hunks` over the remaining
diff lines, carrying the loop state `(in_header, current_hunk, added_lines,
hunks)`.  `current_hunk` holds the pending `(new_start, old_count)` pair. -/
def extractHunksLoop (ls : List (List Char)) (inHeader : Bool)
    (currentHunk : Option (Nat × Nat)) (addedLines : List (List Char))
    (hunks : List Hunk) : List Hunk :=
  match ls with
  | [] =>
    match currentHunk with
    | some sc => hunks ++ [⟨sc.1, sc.2, addedLines⟩]
    | none => hunks
  | line :: rest =>
    match matchHunkHeader line with
    | some g =>
      match currentHunk with
      | some sc =>
        extractHunksLoop rest false (some (g.2.2.1, g.2.1)) []
          (hunks ++ [⟨sc.1, sc.2, addedLines⟩])
      | none =>
        extractHunksLoop rest false (some (g.2.2.1, g.2.1)) [] hunks
    | none =>
      if inHeader then
        extractHunksLoop rest inHeader currentHunk addedLines hunks
      else if line.head? == some '+' then
        extractHunksLoop rest inHeader currentHunk (addedLines ++ [line.tail]) hunks
      else if line.head? == some '-' then
        extractHunksLoop rest inHeader currentHunk addedLines hunks
      else if line.head? == some ' ' then
        extractHunksLoop rest inHeader currentHunk (addedLines ++ [line.tail]) hunks
      else
        extractHunksLoop rest inHeader currentHunk addedLines hunks

/-- `_extract_hunks(diff_content)`. -/
def extractHunks (diffContent : List Char) : List Hunk :=
  extractHunksLoop (splitlines diffContent) true none [] []

/-! ## `_parse_unified_diff` -/

/-- The deletion step of one hunk application:
`if removed_count > 0: new_lines[start_idx:start_idx + removed_count] = []`
with `start_idx = start_line - 1` as a Python `int`. -/
def hunkDelete (cur : List (List Char)) (h : Hunk) : List (List Char) :=
  if 0 < h.removedCount then
    pyDelSlice cur ((h.newStart : Int) - 1)
      (((h.newStart : Int) - 1) + (h.removedCount : Int))
  else cur

/-- The insertion loop of one hunk application:
`for i, line in enumerate(added_lines): new_lines.insert(start_idx + i, line)`. -/
def insertFrom (startIdx : Int) : Nat → List α → List α → List α
  | _, [], cur => cur
  | i, x :: xs, cur => insertFrom startIdx (i + 1) xs (pyInsert cur (startIdx + (i : Int)) x)

/-- One iteration of the hunk-application loop of `_parse_unified_diff`. -/
def applyHunk (cur : List (List Char)) (h : Hunk) : List (List Char) :=
  insertFrom ((h.newStart : Int) - 1) 0 h.lines (hunkDelete cur h)

/-- `_parse_unified_diff(current_lines, diff_content)`: extract the hunks and
apply them in reverse order of appearance. -/
def parseUnifiedDiff (currentLines : List (List Char)) (diffContent : List Char) :
    List (List Char) :=
  (extractHunks diffContent).reverse.foldl applyHunk currentLines

/-! ## `_apply_diff_manually`

The write step of lines 94-98: `'\n'.join(new_lines)` followed by one `'\n'`
when `current_content and current_content.endswith('\n')`. -/

/-- The content written back to the file by `_apply_diff_manually`. -/
def writtenContent (currentContent : List Char) (newLines : List (List Char)) :
    List Char :=
  joinLines newLines ++
    (if !currentContent.isEmpty && endsWithNl currentContent then [ '\n'] else [])

/-- `_apply_diff_manually(file_path, diff_content)` over an abstract file
state.  `fileContent` is the raw on-disk content, `none` when `file_path`
does not exist; what `file.read()` returns is its universal-newlines
translation (text-mode `open` with default `newline=None`), so
`current_content` never contains a carriage return.  `readExc` (consulted
only when the file exists and is opened) and `writeExc` are the exception
oracles for the two `open` blocks.  Returns the message returned to the
caller and the resulting file content. -/
def applyDiffManuallyWith (fileContent : Option (List Char))
    (readExc writeExc : Option (List Char)) (filePath diffContent : List Char) :
    List Char × Option (List Char) :=
  match fileContent, readExc with
  | some _, some e =>
    (lchars (r"Error applying git diff manually: ") ++ e, fileContent)
  | _, _ =>
    match writeExc with
    | some e =>
      (lchars (r"Error applying git diff manually: ") ++ e, fileContent)
    | none =>
      (lchars (r"Git diff applied to ") ++ filePath ++
          lchars (r" successfully using manual diff parser"),
        some (writtenContent (univNewlines (fileContent.getD []))
          (parseUnifiedDiff (splitlines (univNewlines (fileContent.getD [])))
            diffContent)))

/-! ## `_apply_diff_using_git` -/

/-- Outcome of the `subprocess.run(['git', 'apply', ...], check=True)` call:
exit status zero, a `CalledProcessError` (non-zero exit), or some other
exception carrying its message. -/
inductive RunRes where
  | exitZero
  | calledProcessError
  | raised (msg : List Char)
deriving DecidableEq

/-- The observable result of one Dispatcher invocation: the message returned
to the caller, the final content of the target file, and whether the
temporary patch file staged for the external tool remains on disk. -/
structure Outcome where
  msg : List Char
  fileContent : Option (List Char)
  tempRemains : Bool
deriving DecidableEq

/-- The environment of one `_apply_diff` invocation: the target file state,
the result of the `git` availability probe, the exception oracles of the
temporary-file block (`tmpCreateExc` for `NamedTemporaryFile(...)` itself,
`tmpWriteExc` for `temp_file.write(diff_content)`), the outcome of the
`git apply` subprocess, the file content produced by a successful external
`git apply`, and the read/write exception oracles of the fallback path. -/
structure World where
  fileContent : Option (List Char)
  gitAvailable : Bool
  tmpCreateExc : Option (List Char)
  tmpWriteExc : Option (List Char)
  gitRun : RunRes
  gitResultContent : Option (List Char)
  readExc : Option (List Char)
  writeExc : Option (List Char)
deriving DecidableEq

/-- `_apply_diff_using_git(file_path, diff_content)` acting on the file state
`fc`.  The temporary file is created with `delete=False`; the only
`os.unlink` is in the `finally` of the inner `try`, which is entered only
after the `with` block writing the diff has completed, so an exception
raised while writing the diff text leaves the temporary file on disk. -/
def applyDiffUsingGit (w : World) (fc : Option (List Char))
    (filePath diffContent : List Char) : Outcome :=
  match w.tmpCreateExc with
  | some e =>
    ⟨lchars (r"Error applying git diff with git apply: ") ++ e, fc, false⟩
  | none =>
    match w.tmpWriteExc with
    | some e =>
      ⟨lchars (r"Error applying git diff with git apply: ") ++ e, fc, true⟩
    | none =>
      match w.gitRun with
      | RunRes.exitZero =>
        ⟨lchars (r"Git diff applied to ") ++ filePath ++
            lchars (r" successfully using git apply"),
          w.gitResultContent, false⟩
      | RunRes.calledProcessError =>
        ⟨(applyDiffManuallyWith fc w.readExc w.writeExc filePath diffContent).1,
          (applyDiffManuallyWith fc w.readExc w.writeExc filePath diffContent).2,
          false⟩
      | RunRes.raised e =>
        ⟨lchars (r"Error applying git diff with git apply: ") ++ e, fc, false⟩

/-! ## `_apply_diff` (the Dispatcher) -/

/-- Step 1 of `_apply_diff`: create an empty file when the target does not
exist and the diff does not start with a full `diff --git` header. -/
def dispatchFileContent (fc : Option (List Char)) (diffContent : List Char) :
    Option (List Char) :=
  if fc == none && !(lchars (r"diff --git")).isPrefixOf diffContent then some []
  else fc

/-- `_apply_diff(file_path, diff_content)`. -/
def applyDiff (w : World) (filePath diffContent : List Char) : Outcome :=
  if w.gitAvailable then
    applyDiffUsingGit w (dispatchFileContent w.fileContent diffContent)
      filePath diffContent
  else
    ⟨(applyDiffManuallyWith (dispatchFileContent w.fileContent diffContent)
        w.readExc w.writeExc filePath diffContent).1,
      (applyDiffManuallyWith (dispatchFileContent w.fileContent diffContent)
        w.readExc w.writeExc filePath diffContent).2,
      false⟩

/-! ## `write_file` routing (`tools/files.py`) -/

/-- What `write_file` does with its `content` argument. -/
inductive WriteAction where
  | applyPatch
  | verbatim
deriving DecidableEq

/-- The routing predicate of `write_file`: content is treated as a diff when
it starts with `diff --git`, `---`, `+++`, or matches the hunk-header regex. -/
def isDiffContent (content : List Char) : Bool :=
  (lchars (r"diff --git")).isPrefixOf content ||
  (lchars (r"---")).isPrefixOf content ||
  (lchars (r"+++")).isPrefixOf content ||
  (matchHunkHeader content).isSome

/-- The branch `write_file` takes on `content`. -/
def writeFileAction (content : List Char) : WriteAction :=
  if isDiffContent content then WriteAction.applyPatch else WriteAction.verbatim

/-! ## Specification-side definitions

These formalise the wording of the specification claims, to be compared
with the definitions embedded from the source. -/

/-- Claim C1's description of one hunk application: delete `removed_count`
lines starting at the zero-based index `new_start - 1` (a no-op when
`removed_count = 0`), then insert the hunk's lines at that same index,
preserving their order. -/
def specApplyHunk (cur : List (List Char)) (h : Hunk) : List (List Char) :=
  ((cur.take (h.newStart - 1) ++ cur.drop ((h.newStart - 1) + h.removedCount)).take
      (h.newStart - 1)) ++
    h.lines ++
    ((cur.take (h.newStart - 1) ++ cur.drop ((h.newStart - 1) + h.removedCount)).drop
      (h.newStart - 1))

/-- Claim C1's reverse-order fold: apply the extracted hunks to the current
lines in reverse order of their appearance. -/
def specParseUnifiedDiff (currentLines : List (List Char)) (diffContent : List Char) :
    List (List Char) :=
  (extractHunks diffContent).reverse.foldl specApplyHunk currentLines

/-- The hunk-header grammar of the specification with both counts explicit:
`@@ -<d1>,<d2> +<d3>,<d4> @@` followed by arbitrary trailing text. -/
def hunkHeaderLine (d1 d2 d3 d4 rest : List Char) : List Char :=
  '@' :: '@' :: ' ' :: '-' ::
    (d1 ++ ',' :: (d2 ++ ' ' :: '+' :: (d3 ++ ',' :: (d4 ++ ' ' :: '@' :: '@' :: rest))))

/-- Finalisation of the pending hunk, as performed by `_extract_hunks` both
on a new hunk header and at end of input. -/
def finalizeHunks (ch : Option (Nat × Nat)) (al : List (List Char)) (hk : List Hunk) :
    List Hunk :=
  match ch with
  | some sc => hk ++ [⟨sc.1, sc.2, al⟩]
  | none => hk

/-! ## Concrete inputs used by witnesses and counterexamples -/

/-- A delete-all-style diff whose hunk header declares `new_start = 0`:
`@@ -1,2 +0,2 @@` followed by added lines `a` and `b`. -/
def c1xDiff : List Char :=
  lchars (r"@@ -1,2 +0,2 @@") ++ '\n' :: lchars (r"+a") ++ '\n' :: lchars (r"+b")

/-- The two-line original content `["p", "q"]`. -/
def c1xCur : List (List Char) :=
  [lchars (r"p"), lchars (r"q")]

/-- The single-addition diff of testable property 1: `@@ -1,1 +1,2 @@` with
context `a` and added `x`. -/
def c1wDiff : List Char :=
  lchars (r"@@ -1,1 +1,2 @@") ++ '\n' :: lchars (r" a") ++ '\n' :: lchars (r"+x")

/-- The three-line original content `["a", "b", "c"]`. -/
def c1wCur : List (List Char) :=
  [lchars (r"a"), lchars (r"b"), lchars (r"c")]

/-- A diff whose hunk header uses the omitted-count form `@@ -1 +1 @@`
followed by an added line. -/
def c2xDiff : List Char :=
  lchars (r"@@ -1 +1 @@") ++ '\n' :: lchars (r"+x")

/-- A diff containing a `+++` line after the first hunk header. -/
def c3xDiff : List Char :=
  lchars (r"@@ -1,1 +1,1 @@") ++ '\n' :: lchars (r"+++ b/x")

/-- A pure-deletion hunk whose declared range (5 lines from line 1)
over-runs a two-line file. -/
def c5wHunk : Hunk :=
  ⟨1, 5, []⟩

/-- The two-line original content `["a", "b"]`. -/
def c5wCur : List (List Char) :=
  [lchars (r"a"), lchars (r"b")]

/-- A Dispatcher environment for a non-existent target file with git
unavailable and no I/O exceptions. -/
def c7wWorld : World :=
  ⟨none, false, none, none, RunRes.exitZero, none, none, none⟩

/-- A pure-addition patch fragment creating two lines. -/
def c7wDiff : List Char :=
  lchars (r"@@ -0,0 +1,2 @@") ++ '\n' :: lchars (r"+hello") ++ '\n' :: lchars (r"+world")

/-- An environment where git is available but writing the diff text to the
temporary patch file raises. -/
def c8xWorld : World :=
  ⟨some [], true, none, some (lchars (r"disk full")), RunRes.exitZero, none, none, none⟩

/-- An environment where git is available, the temporary file is written,
and the external tool exits non-zero. -/
def c8wWorld : World :=
  ⟨none, true, none, none, RunRes.calledProcessError, none, none, none⟩

/-- The raw on-disk content `"b\r"`, ending in a lone carriage return. -/
def c10wRaw : List Char :=
  [ 'b', '\r']

/-! ## Helper lemmas on the Python list primitives -/

theorem take_min_length (l : List α) (j : Nat) : l.take (min j l.length) = l.take j := by
  rcases Nat.le_total j l.length with h | h
  · rw [Nat.min_eq_left h]
  · rw [Nat.min_eq_right h, List.take_length, List.take_of_length_le h]

theorem drop_min_length (l : List α) (j : Nat) : l.drop (min j l.length) = l.drop j := by
  rcases Nat.le_total j l.length with h | h
  · rw [Nat.min_eq_left h]
  · rw [Nat.min_eq_right h, List.drop_length, List.drop_eq_nil_of_le h]

theorem pySliceBound_natCast (n j : Nat) : pySliceBound n (j : Int) = min j n := by
  unfold pySliceBound
  rw [if_neg (by exact not_lt.mpr (Int.natCast_nonneg j)), Int.toNat_natCast]

theorem pyDelSlice_natCast (l : List α) (j k : Nat) (hjk : j ≤ k) :
    pyDelSlice l (j : Int) (k : Int) = l.take j ++ l.drop k := by
  unfold pyDelSlice
  rw [pySliceBound_natCast, pySliceBound_natCast,
    Nat.max_eq_left (min_le_min hjk (le_refl l.length)),
    take_min_length, drop_min_length]

theorem pyInsert_natCast (l : List α) (p : Nat) (x : α) :
    pyInsert l (p : Int) x = l.take (min p l.length) ++ x :: l.drop (min p l.length) := by
  unfold pyInsert
  rw [pySliceBound_natCast]

theorem insertFrom_of_le (j : Nat) (xs : List α) : ∀ (i : Nat) (cur : List α),
    j + i ≤ cur.length →
    insertFrom (j : Int) i xs cur = cur.take (j + i) ++ xs ++ cur.drop (j + i) := by
  induction xs with
  | nil =>
    intro i cur _
    simp [insertFrom, List.take_append_drop]
  | cons x xs ih =>
    intro i cur hle
    rw [insertFrom]
    have hc : (j : Int) + (i : Int) = ((j + i : Nat) : Int) := by push_cast; ring
    rw [hc, pyInsert_natCast, Nat.min_eq_left hle]
    have hlen : (cur.take (j + i) ++ x :: cur.drop (j + i)).length = cur.length + 1 := by
      simp [List.length_take, List.length_drop]
      omega
    have hle' : j + (i + 1) ≤ (cur.take (j + i) ++ x :: cur.drop (j + i)).length := by
      rw [hlen]; omega
    rw [ih (i + 1) _ hle']
    have htl : (cur.take (j + i)).length = j + i := by
      rw [List.length_take]; omega
    rw [List.take_append_eq_append_take, List.drop_append_eq_append_drop, htl]
    have h1 : (cur.take (j + i)).take (j + (i + 1)) = cur.take (j + i) := by
      rw [List.take_of_length_le (by omega)]
    have h2 : (cur.take (j + i)).drop (j + (i + 1)) = [] := by
      rw [List.drop_eq_nil_of_le (by omega)]
    rw [h1, h2]
    have h3 : j + (i + 1) - (j + i) = 1 := by omega
    rw [h3]
    simp

theorem insertFrom_of_ge (j : Nat) (xs : List α) : ∀ (i : Nat) (cur : List α),
    cur.length ≤ j + i →
    insertFrom (j : Int) i xs cur = cur ++ xs := by
  induction xs with
  | nil =>
    intro i cur _
    simp [insertFrom]
  | cons x xs ih =>
    intro i cur hge
    rw [insertFrom]
    have hc : (j : Int) + (i : Int) = ((j + i : Nat) : Int) := by push_cast; ring
    rw [hc, pyInsert_natCast, Nat.min_eq_right hge, List.take_length, List.drop_length]
    have hge' : (cur ++ [x]).length ≤ j + (i + 1) := by
      simp [List.length_append]; omega
    have := ih (i + 1) (cur ++ [x]) hge'
    simpa using this

theorem insertFrom_splice (j : Nat) (xs cur : List α) :
    insertFrom (j : Int) 0 xs cur = cur.take j ++ xs ++ cur.drop j := by
  rcases Nat.le_total j cur.length with h | h
  · simpa using insertFrom_of_le j xs 0 cur (by omega)
  · rw [insertFrom_of_ge j xs 0 cur (by omega), List.take_of_length_le h,
      List.drop_eq_nil_of_le h]
    simp

theorem hunkDelete_eq (cur : List (List Char)) (h : Hunk) (hpos : 1 ≤ h.newStart) :
    hunkDelete cur h =
      cur.take (h.newStart - 1) ++ cur.drop ((h.newStart - 1) + h.removedCount) := by
  have e1 : ((h.newStart : Int)) - 1 = ((h.newStart - 1 : Nat) : Int) := by
    rw [Nat.cast_sub hpos]; rfl
  unfold hunkDelete
  split
  · rw [e1]
    have e2 : ((h.newStart - 1 : Nat) : Int) + (h.removedCount : Int) =
        (((h.newStart - 1) + h.removedCount : Nat) : Int) := by push_cast; ring
    rw [e2, pyDelSlice_natCast cur _ _ (by omega)]
  · have hz : h.removedCount = 0 := by omega
    rw [hz, Nat.add_zero, List.take_append_drop]

theorem applyHunk_eq_spec (cur : List (List Char)) (h : Hunk) (hpos : 1 ≤ h.newStart) :
    applyHunk cur h = specApplyHunk cur h := by
  unfold applyHunk specApplyHunk
  rw [hunkDelete_eq cur h hpos]
  have e1 : ((h.newStart : Int)) - 1 = ((h.newStart - 1 : Nat) : Int) := by
    rw [Nat.cast_sub hpos]; rfl
  rw [e1, insertFrom_splice]

theorem foldl_applyHunk_eq_spec (hs : List Hunk) : ∀ (cur : List (List Char)),
    (∀ h ∈ hs, 1 ≤ h.newStart) →
    hs.foldl applyHunk cur = hs.foldl specApplyHunk cur := by
  induction hs with
  | nil => intro cur _; rfl
  | cons h t ih =>
    intro cur hall
    simp only [List.foldl_cons]
    rw [applyHunk_eq_spec cur h (hall h (by simp))]
    exact ih _ (fun h' hm => hall h' (by simp [hm]))

/-! ## Claim C1 -/

/-- Claim C1 as stated fails: a hunk header `@@ -a,b +0,c @@` (as emitted by
git when a patch deletes all of a file's content) has `new_start = 0`, the
Python `start_idx` is `-1`, and the repeated `list.insert` calls at indices
`-1, 0, 1, ...` neither target one fixed index nor preserve the order of the
hunk's lines.  For `current_lines = ["p", "q"]` and the single-hunk diff
`@@ -1,2 +0,2 @@` adding `a` and `b`, the code returns `["b", "p", "a", "q"]`
while the claim's reverse-order delete-then-insert fold returns
`["a", "b"]`. -/
theorem claim_C1_counterexample :
    extractHunks c1xDiff ≠ [] ∧
    parseUnifiedDiff c1xCur c1xDiff ≠ specParseUnifiedDiff c1xCur c1xDiff := by
  constructor
  · decide
  · decide

/-- Claim C1 (amended): for every patch whose extraction yields a non-empty
list of hunks, all with `new_start ≥ 1`, the built-in applier returns the
reverse-order fold that, for each hunk, deletes `removed_count` lines at the
zero-based index `new_start - 1` (clamped at the end of the list; a no-op
when `removed_count = 0`) and then inserts the hunk's lines at that same
index, preserving their order. -/
theorem claim_C1 (cur : List (List Char)) (d : List Char)
    (_hne : extractHunks d ≠ [])
    (hpos : ∀ h ∈ extractHunks d, 1 ≤ h.newStart) :
    parseUnifiedDiff cur d = specParseUnifiedDiff cur d := by
  unfold parseUnifiedDiff specParseUnifiedDiff
  exact foldl_applyHunk_eq_spec _ cur (fun h hm => hpos h (List.mem_reverse.mp hm))

/-- Concrete instance of claim C1: original `["a", "b", "c"]` with a hunk
replacing line 1 by `a`, `x`. -/
theorem claim_C1_witness :
    extractHunks c1wDiff ≠ [] ∧ (∀ h ∈ extractHunks c1wDiff, 1 ≤ h.newStart) ∧
    parseUnifiedDiff c1wCur c1wDiff = specParseUnifiedDiff c1wCur c1wDiff :=
  ⟨by decide, by decide, claim_C1 c1wCur c1wDiff (by decide) (by decide)⟩

/-! ## Helper lemmas on the hunk-header parser -/

theorem takeWhile_append_of_all (p : α → Bool) (l1 l2 : List α)
    (h : ∀ a ∈ l1, p a = true) :
    (l1 ++ l2).takeWhile p = l1 ++ l2.takeWhile p := by
  induction l1 with
  | nil => simp
  | cons a t ih =>
    simp only [List.cons_append]
    rw [List.takeWhile_cons_of_pos (h a (by simp)), ih (fun b hb => h b (by simp [hb]))]

theorem dropWhile_append_of_all (p : α → Bool) (l1 l2 : List α)
    (h : ∀ a ∈ l1, p a = true) :
    (l1 ++ l2).dropWhile p = l2.dropWhile p := by
  induction l1 with
  | nil => simp
  | cons a t ih =>
    simp only [List.cons_append]
    rw [List.dropWhile_cons_of_pos (h a (by simp)), ih (fun b hb => h b (by simp [hb]))]

theorem expectChars_append (pre r : List Char) : expectChars pre (pre ++ r) = some r := by
  unfold expectChars
  rw [if_pos ( List.isPrefixOf_iff_prefix.mpr ( List.prefix_append pre r)), List.drop_left]

theorem expectChars_eq_some {pre l r : List Char} (h : expectChars pre l = some r) :
    l = pre ++ r := by
  unfold expectChars at h
  split at h
  case isTrue hp =>
    obtain ⟨t, ht⟩ := List.isPrefixOf_iff_prefix.mp hp
    rw [← ht, List.drop_left] at h
    rw [← ht, Option.some_inj.mp h]
  case isFalse => cases h

theorem expectChars_cons1 (c : Char) (r : List Char) :
    expectChars [c] (c :: r) = some r := by
  simpa using expectChars_append [c] r

theorem expectChars_cons2 (c1 c2 : Char) (r : List Char) :
    expectChars [c1, c2] (c1 :: c2 :: r) = some r := by
  simpa using expectChars_append [c1, c2] r

theorem expectChars_cons3 (c1 c2 c3 : Char) (r : List Char) :
    expectChars [c1, c2, c3] (c1 :: c2 :: c3 :: r) = some r := by
  simpa using expectChars_append [c1, c2, c3] r

theorem expectChars_cons4 (c1 c2 c3 c4 : Char) (r : List Char) :
    expectChars [c1, c2, c3, c4] (c1 :: c2 :: c3 :: c4 :: r) = some r := by
  simpa using expectChars_append [c1, c2, c3, c4] r

theorem parseDigits_append (ds : List Char) (c : Char) (r : List Char)
    (hne : ds ≠ []) (hd : ∀ x ∈ ds, x.isDigit = true) (hc : c.isDigit = false) :
    parseDigits (ds ++ c :: r) = some (natOfDigits ds, c :: r) := by
  unfold parseDigits
  rw [takeWhile_append_of_all _ _ _ hd, dropWhile_append_of_all _ _ _ hd,
    List.takeWhile_cons_of_neg (by simp [hc]), List.dropWhile_cons_of_neg (by simp [hc]),
    List.append_nil]
  have hemp : ds.isEmpty = false := by
    cases ds
    · exact absurd rfl hne
    · rfl
  simp [hemp]

theorem parseDigits_eq_some {l : List Char} {v : Nat} {r : List Char}
    (h : parseDigits l = some (v, r)) :
    ∃ ds, ds ≠ [] ∧ (∀ x ∈ ds, x.isDigit = true) ∧ l = ds ++ r ∧ v = natOfDigits ds := by
  unfold parseDigits at h
  split at h
  case isTrue => cases h
  case isFalse hne =>
    rw [Option.some_inj, Prod.mk.injEq] at h
    obtain ⟨hv, hr⟩ := h
    refine ⟨l.takeWhile Char.isDigit, ?_, fun x hx => List.mem_takeWhile_imp hx, ?_, hv.symm⟩
    · intro heq
      exact hne (by simp [heq])
    · rw [← hr]
      exact (List.takeWhile_append_dropWhile Char.isDigit l).symm

theorem matchHunkHeader_sound (d1 d2 d3 d4 rest : List Char)
    (h1 : d1 ≠ []) (h1d : ∀ c ∈ d1, c.isDigit = true)
    (h2 : d2 ≠ []) (h2d : ∀ c ∈ d2, c.isDigit = true)
    (h3 : d3 ≠ []) (h3d : ∀ c ∈ d3, c.isDigit = true)
    (h4 : d4 ≠ []) (h4d : ∀ c ∈ d4, c.isDigit = true) :
    matchHunkHeader (hunkHeaderLine d1 d2 d3 d4 rest) =
      some (natOfDigits d1, natOfDigits d2, natOfDigits d3, natOfDigits d4) := by
  unfold matchHunkHeader hunkHeaderLine
  rw [expectChars_cons4]
  simp only [Option.some_bind]
  rw [parseDigits_append d1 ',' _ h1 h1d (by decide)]
  simp only [Option.some_bind]
  rw [expectChars_cons1]
  simp only [Option.some_bind]
  rw [parseDigits_append d2 ' ' _ h2 h2d (by decide)]
  simp only [Option.some_bind]
  rw [expectChars_cons2]
  simp only [Option.some_bind]
  rw [parseDigits_append d3 ',' _ h3 h3d (by decide)]
  simp only [Option.some_bind]
  rw [expectChars_cons1]
  simp only [Option.some_bind]
  rw [parseDigits_append d4 ' ' _ h4 h4d (by decide)]
  simp only [Option.some_bind]
  rw [expectChars_cons3]
  rfl

theorem matchHunkHeader_eq_some {l : List Char} {g : Nat × Nat × Nat × Nat}
    (h : matchHunkHeader l = some g) :
    ∃ d1 d2 d3 d4 rest, d1 ≠ [] ∧ (∀ c ∈ d1, c.isDigit = true) ∧
      d2 ≠ [] ∧ (∀ c ∈ d2, c.isDigit = true) ∧
      d3 ≠ [] ∧ (∀ c ∈ d3, c.isDigit = true) ∧
      d4 ≠ [] ∧ (∀ c ∈ d4, c.isDigit = true) ∧
      l = hunkHeaderLine d1 d2 d3 d4 rest ∧
      g = (natOfDigits d1, natOfDigits d2, natOfDigits d3, natOfDigits d4) := by
  unfold matchHunkHeader at h
  rw [Option.bind_eq_some] at h
  obtain ⟨r1, he1, h⟩ := h
  rw [Option.bind_eq_some] at h
  obtain ⟨⟨v1, s1⟩, hp1, h⟩ := h
  rw [Option.bind_eq_some] at h
  obtain ⟨r2, he2, h⟩ := h
  rw [Option.bind_eq_some] at h
  obtain ⟨⟨v2, s2⟩, hp2, h⟩ := h
  rw [Option.bind_eq_some] at h
  obtain ⟨r3, he3, h⟩ := h
  rw [Option.bind_eq_some] at h
  obtain ⟨⟨v3, s3⟩, hp3, h⟩ := h
  rw [Option.bind_eq_some] at h
  obtain ⟨r4, he4, h⟩ := h
  rw [Option.bind_eq_some] at h
  obtain ⟨⟨v4, s4⟩, hp4, h⟩ := h
  rw [Option.map_eq_some'] at h
  obtain ⟨r5, he5, hg⟩ := h
  simp only at he2 he3 he4 he5 hg
  obtain ⟨ds1, hne1, hd1, heq1, hv1⟩ := parseDigits_eq_some hp1
  obtain ⟨ds2, hne2, hd2, heq2, hv2⟩ := parseDigits_eq_some hp2
  obtain ⟨ds3, hne3, hd3, heq3, hv3⟩ := parseDigits_eq_some hp3
  obtain ⟨ds4, hne4, hd4, heq4, hv4⟩ := parseDigits_eq_some hp4
  refine ⟨ds1, ds2, ds3, ds4, r5, hne1, hd1, hne2, hd2, hne3, hd3, hne4, hd4, ?_, ?_⟩
  · rw [expectChars_eq_some he1, heq1, expectChars_eq_some he2, heq2,
      expectChars_eq_some he3, heq3, expectChars_eq_some he4, heq4,
      expectChars_eq_some he5]
    simp [hunkHeaderLine]
  · rw [← hg, hv1, hv2, hv3, hv4]

/-- A line whose first character is not `@` cannot match the hunk-header
regex. -/
theorem matchHunkHeader_of_head_ne {line : List Char}
    (h : line.head? ≠ some '@') : matchHunkHeader line = none := by
  unfold matchHunkHeader expectChars
  cases line with
  | nil => rfl
  | cons c t =>
    have hc : c ≠ '@' := by
      intro hc
      exact h (by simp [hc])
    have hpre : ([ '@', '@', ' ', '-'].isPrefixOf (c :: t)) = false := by
      simp only [List.isPrefixOf]
      simp [Ne.symm hc]
    rw [hpre]
    rfl

/-! ## Claim C2 -/

/-- Claim C2 as stated fails: the code's regex requires both counts to be
explicit, so the omitted-count form `@@ -1 +1 @@` (count defaulting to 1 per
unified-diff convention) is not recognised as a hunk header — no hunk is
started for it, and the whole diff `@@ -1 +1 @@` + `+x` yields no hunks at
all instead of the hunk `(1, 1, ["x"])` the claim requires. -/
theorem claim_C2_counterexample :
    extractHunks c2xDiff = [] ∧
    extractHunks c2xDiff ≠ [⟨1, 1, [lchars (r"x")]⟩] := by
  constructor
  · decide
  · decide

/-- Claim C2 (amended): hunk extraction recognises exactly the explicit-count
hunk-header form `@@ -<old_start>,<old_count> +<new_start>,<new_count> @@`
(possibly followed by trailing text): on such a line the pending hunk is
finalised and a new hunk is started with `removed_count` equal to
`old_count` and starting position `new_start`; the omitted-count form is not
recognised. -/
theorem claim_C2 (d1 d2 d3 d4 rest : List Char) (rem : List (List Char))
    (inH : Bool) (ch : Option (Nat × Nat)) (al : List (List Char)) (hk : List Hunk)
    (h1 : d1 ≠ []) (h1d : ∀ c ∈ d1, c.isDigit = true)
    (h2 : d2 ≠ []) (h2d : ∀ c ∈ d2, c.isDigit = true)
    (h3 : d3 ≠ []) (h3d : ∀ c ∈ d3, c.isDigit = true)
    (h4 : d4 ≠ []) (h4d : ∀ c ∈ d4, c.isDigit = true) :
    extractHunksLoop (hunkHeaderLine d1 d2 d3 d4 rest :: rem) inH ch al hk =
      extractHunksLoop rem false (some (natOfDigits d3, natOfDigits d2)) []
        (finalizeHunks ch al hk) := by
  rw [extractHunksLoop,
    matchHunkHeader_sound d1 d2 d3 d4 rest h1 h1d h2 h2d h3 h3d h4 h4d]
  cases ch with
  | some sc => rfl
  | none => rfl

/-- Concrete instance of claim C2: the header `@@ -10,2 +30,4 @@ ctx` starts
a hunk `(30, 2)` and finalises the pending hunk `(1, 1)` with its collected
lines. -/
theorem claim_C2_witness :
    ([ '1', '0'] : List Char) ≠ [] ∧ (∀ c ∈ ([ '1', '0'] : List Char), c.isDigit = true) ∧
    extractHunksLoop
        (hunkHeaderLine [ '1', '0'] [ '2'] [ '3', '0'] [ '4'] (lchars (r" ctx")) ::
          [lchars (r"+y")])
        false (some (1, 1)) [lchars (r"x")] [] =
      extractHunksLoop [lchars (r"+y")] false (some (30, 2)) []
        (finalizeHunks (some (1, 1)) [lchars (r"x")] []) :=
  ⟨by decide, by decide,
    claim_C2 [ '1', '0'] [ '2'] [ '3', '0'] [ '4'] (lchars (r" ctx")) [lchars (r"+y")]
      false (some (1, 1)) [lchars (r"x")] []
      (by decide) (by decide) (by decide) (by decide)
      (by decide) (by decide) (by decide) (by decide)⟩

/-! ## Claim C3 -/

/-- Claim C3 as stated fails: after the first hunk header, a line beginning
with `+++` falls into the `line.startswith('+')` branch like any other `+`
line, so its content (marker stripped, i.e. `++ b/x`) IS appended to the
current hunk's lines — the claim predicts the hunk's lines stay empty. -/
theorem claim_C3_counterexample :
    extractHunks c3xDiff ≠ [⟨1, 1, []⟩] ∧
    extractHunks c3xDiff = [⟨1, 1, [lchars (r"++ b/x")]⟩] := by
  constructor
  · decide
  · decide

/-- Claim C3 (amended): during hunk extraction, after the first hunk header
has been seen, every diff line beginning with `+` — including lines
beginning with `+++` — has its first character stripped and its remaining
content appended to the current hunk's lines. -/
theorem claim_C3 (line : List Char) (rest : List (List Char))
    (ch : Option (Nat × Nat)) (al : List (List Char)) (hk : List Hunk)
    (hplus : line.head? = some '+') :
    extractHunksLoop (line :: rest) false ch al hk =
      extractHunksLoop rest false ch (al ++ [line.tail]) hk := by
  rw [extractHunksLoop, matchHunkHeader_of_head_ne (by rw [hplus]; decide)]
  simp [hplus]

/-- Concrete instance of claim C3: the added line `+x` is stripped and
appended. -/
theorem claim_C3_witness :
    (lchars (r"+x")).head? = some '+' ∧
    extractHunksLoop [lchars (r"+x")] false (some (1, 1)) [] [] =
      extractHunksLoop [] false (some (1, 1)) ([] ++ [(lchars (r"+x")).tail]) [] :=
  ⟨by decide, claim_C3 (lchars (r"+x")) [] (some (1, 1)) [] [] (by decide)⟩

/-! ## Claim C4 -/

/-- Claim C4: the content written by the built-in applier is the new lines
joined by single newlines, with exactly one trailing newline appended if and
only if the original content ended with a newline.  (The source's extra
`current_content and` guard is redundant: empty content does not end with a
newline.) -/
theorem claim_C4 (cc : List Char) (nl : List (List Char)) :
    writtenContent cc nl =
      joinLines nl ++ (if endsWithNl cc then [ '\n'] else []) := by
  unfold writtenContent
  cases cc with
  | nil => simp [endsWithNl]
  | cons a t => simp

/-! ## Claim C5 -/

/-- Claim C5: for a hunk (with a positive starting line) whose declared
range over-runs the end of the current line list, the deletion step is a
clamped slice: it keeps exactly the lines before `new_start - 1` (everything
from there on exists and is removed, and nothing that does not exist is
touched), and, being a total function, never fails. -/
theorem claim_C5 (cur : List (List Char)) (h : Hunk)
    (hpos : 1 ≤ h.newStart)
    (hover : cur.length < (h.newStart - 1) + h.removedCount) :
    hunkDelete cur h = cur.take (h.newStart - 1) ∧
    (hunkDelete cur h).Sublist cur := by
  have hd := hunkDelete_eq cur h hpos
  rw [hd, List.drop_eq_nil_of_le (by omega), List.append_nil]
  exact ⟨rfl, List.take_sublist _ _⟩

/-- Concrete instance of claim C5: deleting 5 lines from line 1 of a
two-line file removes just the two existing lines. -/
theorem claim_C5_witness :
    1 ≤ c5wHunk.newStart ∧
    c5wCur.length < (c5wHunk.newStart - 1) + c5wHunk.removedCount ∧
    (hunkDelete c5wCur c5wHunk = c5wCur.take (c5wHunk.newStart - 1) ∧
      (hunkDelete c5wCur c5wHunk).Sublist c5wCur) :=
  ⟨by decide, by decide, claim_C5 c5wCur c5wHunk (by decide) (by decide)⟩

/-! ## Claim C6 -/

/-- Claim C6: the built-in application path is total — whatever the file
state and whichever I/O operation raises, it returns either the success
confirmation naming the file and the manual method, or an error string
prefixed with the descriptive error message; no exception escapes. -/
theorem claim_C6 (fc : Option (List Char)) (rexc wexc : Option (List Char))
    (fp d : List Char) :
    (applyDiffManuallyWith fc rexc wexc fp d).1 =
        lchars (r"Git diff applied to ") ++ fp ++
          lchars (r" successfully using manual diff parser") ∨
      ∃ e, (applyDiffManuallyWith fc rexc wexc fp d).1 =
        lchars (r"Error applying git diff manually: ") ++ e := by
  unfold applyDiffManuallyWith
  cases fc with
  | some c =>
    cases rexc with
    | some e => exact Or.inr ⟨e, rfl⟩
    | none =>
      cases wexc with
      | some e => exact Or.inr ⟨e, rfl⟩
      | none => exact Or.inl rfl
  | none =>
    cases rexc with
    | some e =>
      cases wexc with
      | some e' => exact Or.inr ⟨e', rfl⟩
      | none => exact Or.inl rfl
    | none =>
      cases wexc with
      | some e => exact Or.inr ⟨e, rfl⟩
      | none => exact Or.inl rfl

/-! ## Claim C7 -/

/-- Claim C7: when the target file does not exist and the diff does not
start with a `diff --git` header, the Dispatcher first creates an empty
file, and (with the external tool unavailable and no I/O exception) the
built-in applier then runs against that empty content and succeeds. -/
theorem claim_C7 (w : World) (fp d : List Char)
    (h1 : w.fileContent = none)
    (h2 : (lchars (r"diff --git")).isPrefixOf d = false)
    (h3 : w.gitAvailable = false)
    (h4 : w.readExc = none) (h5 : w.writeExc = none) :
    dispatchFileContent w.fileContent d = some [] ∧
    applyDiff w fp d =
      ⟨lchars (r"Git diff applied to ") ++ fp ++
          lchars (r" successfully using manual diff parser"),
        some (writtenContent [] (parseUnifiedDiff [] d)), false⟩ := by
  have hd : dispatchFileContent w.fileContent d = some [] := by
    simp [dispatchFileContent, h1, h2]
  refine ⟨hd, ?_⟩
  unfold applyDiff
  rw [h3, hd, h4, h5]
  rfl

/-- Concrete instance of claim C7: a pure-addition fragment applied at a
non-existent path creates the file and writes the two added lines. -/
theorem claim_C7_witness :
    c7wWorld.fileContent = none ∧
    (lchars (r"diff --git")).isPrefixOf c7wDiff = false ∧
    c7wWorld.gitAvailable = false ∧
    c7wWorld.readExc = none ∧ c7wWorld.writeExc = none ∧
    (dispatchFileContent c7wWorld.fileContent c7wDiff = some [] ∧
      applyDiff c7wWorld (lchars (r"new.txt")) c7wDiff =
        ⟨lchars (r"Git diff applied to ") ++ lchars (r"new.txt") ++
            lchars (r" successfully using manual diff parser"),
          some (writtenContent [] (parseUnifiedDiff [] c7wDiff)), false⟩) :=
  ⟨rfl, by decide, rfl, rfl, rfl,
    claim_C7 c7wWorld (lchars (r"new.txt")) c7wDiff rfl (by decide) rfl rfl rfl⟩

/-! ## Claim C8 -/

/-- Claim C8 as stated fails: the `os.unlink` lives in the `finally` of the
inner `try`, which is entered only after the `with` block that writes the
diff text has completed; when `temp_file.write(diff_content)` raises, the
outer `except` catches the exception and returns, and the temporary file
(created with `delete=False`) is never removed. -/
theorem claim_C8_counterexample :
    (applyDiff c8xWorld (lchars (r"f.txt")) (lchars (r"d"))).tempRemains = true := by
  rfl

/-- Claim C8 (amended): on every external-tool attempt in which the diff
text is successfully written to the temporary file, the temporary file is
deleted on every exit path — external-tool success, non-zero exit, and any
exception raised by the invocation itself; only an exception while writing
the diff text leaks the file. -/
theorem claim_C8 (w : World) (fc : Option (List Char)) (fp d : List Char)
    (hw : w.tmpWriteExc = none) :
    (applyDiffUsingGit w fc fp d).tempRemains = false := by
  obtain ⟨a1, a2, a3, a4, a5, a6, a7, a8⟩ := w
  simp only at hw
  subst hw
  cases a3 <;> cases a5 <;> rfl

/-- Concrete instance of claim C8: with the temporary file written and the
external tool failing, the temporary file does not remain. -/
theorem claim_C8_witness :
    c8wWorld.tmpWriteExc = none ∧
    (applyDiffUsingGit c8wWorld none [] []).tempRemains = false :=
  ⟨rfl, claim_C8 c8wWorld none [] [] rfl⟩

/-! ## Claim C9 -/

/-- Claim C9: `write_file` writes its content verbatim exactly when the
content starts with none of the diff markers: not `diff --git`, not `---`,
not `+++`, and its first characters do not match the explicit-count
hunk-header form `@@ -<n>,<n> +<n>,<n> @@`; any of those prefixes routes the
content to the diff-application engine instead, so ordinary text starting
with `---` is never written literally. -/
theorem claim_C9 (content : List Char) :
    writeFileAction content = WriteAction.verbatim ↔
      ¬(lchars (r"diff --git")).isPrefixOf content = true ∧
      ¬(lchars (r"---")).isPrefixOf content = true ∧
      ¬(lchars (r"+++")).isPrefixOf content = true ∧
      ¬∃ d1 d2 d3 d4 rest, d1 ≠ [] ∧ (∀ c ∈ d1, c.isDigit = true) ∧
          d2 ≠ [] ∧ (∀ c ∈ d2, c.isDigit = true) ∧
          d3 ≠ [] ∧ (∀ c ∈ d3, c.isDigit = true) ∧
          d4 ≠ [] ∧ (∀ c ∈ d4, c.isDigit = true) ∧
          content = hunkHeaderLine d1 d2 d3 d4 rest := by
  have hmatch : (matchHunkHeader content).isSome = true ↔
      (∃ d1 d2 d3 d4 rest, d1 ≠ [] ∧ (∀ c ∈ d1, c.isDigit = true) ∧
        d2 ≠ [] ∧ (∀ c ∈ d2, c.isDigit = true) ∧
        d3 ≠ [] ∧ (∀ c ∈ d3, c.isDigit = true) ∧
        d4 ≠ [] ∧ (∀ c ∈ d4, c.isDigit = true) ∧
        content = hunkHeaderLine d1 d2 d3 d4 rest) := by
    constructor
    · intro hs
      obtain ⟨g, hg⟩ := Option.isSome_iff_exists.mp hs
      obtain ⟨d1, d2, d3, d4, rest, a1, a2, a3, a4, a5, a6, a7, a8, heq, _⟩ :=
        matchHunkHeader_eq_some hg
      exact ⟨d1, d2, d3, d4, rest, a1, a2, a3, a4, a5, a6, a7, a8, heq⟩
    · rintro ⟨d1, d2, d3, d4, rest, a1, a2, a3, a4, a5, a6, a7, a8, heq⟩
      rw [heq, matchHunkHeader_sound d1 d2 d3 d4 rest a1 a2 a3 a4 a5 a6 a7 a8]
      rfl
  have hact : writeFileAction content = WriteAction.verbatim ↔
      isDiffContent content = false := by
    unfold writeFileAction
    cases h : isDiffContent content <;> simp
  rw [hact]
  unfold isDiffContent
  simp only [Bool.or_eq_false_iff]
  constructor
  · rintro ⟨⟨⟨ha, hb⟩, hc⟩, hd⟩
    refine ⟨by simp [ha], by simp [hb], by simp [hc], ?_⟩
    intro hex
    rw [hmatch.mpr hex] at hd
    cases hd
  · rintro ⟨ha, hb, hc, hd⟩
    simp only [Bool.not_eq_true] at ha hb hc
    refine ⟨⟨⟨ha, hb⟩, hc⟩, ?_⟩
    cases hs : (matchHunkHeader content).isSome
    · rfl
    · exact absurd (hmatch.mp hs) hd

/-! ## Helper lemmas: no written character is a carriage return -/

theorem splitlinesGo_no_break (s : List Char) : ∀ (b : Bool) (acc : List Char),
    (∀ c ∈ acc, isLineBreak c = false) →
    ∀ l ∈ splitlinesGo s b acc, ∀ c ∈ l, isLineBreak c = false := by
  induction s with
  | nil =>
    intro b acc hacc l hl
    rw [splitlinesGo] at hl
    split at hl
    · cases hl
    · rw [List.mem_singleton] at hl
      subst hl
      exact hacc
  | cons c rest ih =>
    intro b acc hacc l hl
    rw [splitlinesGo] at hl
    split at hl
    · exact ih false acc hacc l hl
    · split at hl
      · rcases List.mem_cons.mp hl with h | h
        · subst h
          exact hacc
        · exact ih _ [] (by intro x hx; cases hx) l h
      · rename_i hnb
        refine ih false (acc ++ [c]) ?_ l hl
        intro x hx
        rcases List.mem_append.mp hx with h | h
        · exact hacc x h
        · rw [List.mem_singleton] at h
          subst h
          simpa using hnb

theorem splitlines_no_break (s : List Char) :
    ∀ l ∈ splitlines s, ∀ c ∈ l, isLineBreak c = false :=
  splitlinesGo_no_break s false [] (by intro c hc; cases hc)

theorem mem_pyDelSlice {a : α} {l : List α} {s e : Int} (h : a ∈ pyDelSlice l s e) :
    a ∈ l := by
  unfold pyDelSlice at h
  rcases List.mem_append.mp h with h | h
  · exact List.take_subset _ _ h
  · exact List.drop_subset _ _ h

theorem mem_pyInsert {a x : α} {l : List α} {i : Int} (h : a ∈ pyInsert l i x) :
    a = x ∨ a ∈ l := by
  unfold pyInsert at h
  rcases List.mem_append.mp h with h | h
  · exact Or.inr (List.take_subset _ _ h)
  · rcases List.mem_cons.mp h with h | h
    · exact Or.inl h
    · exact Or.inr (List.drop_subset _ _ h)

theorem mem_insertFrom {a : α} (xs : List α) : ∀ (s : Int) (i : Nat) (cur : List α),
    a ∈ insertFrom s i xs cur → a ∈ xs ∨ a ∈ cur := by
  induction xs with
  | nil =>
    intro s i cur h
    rw [insertFrom] at h
    exact Or.inr h
  | cons x t ih =>
    intro s i cur h
    rw [insertFrom] at h
    rcases ih s (i + 1) _ h with h | h
    · exact Or.inl (List.mem_cons_of_mem x h)
    · rcases mem_pyInsert h with h | h
      · exact Or.inl (h ▸ List.mem_cons_self x t)
      · exact Or.inr h

theorem mem_hunkDelete {a : List Char} {cur : List (List Char)} {h : Hunk}
    (hm : a ∈ hunkDelete cur h) : a ∈ cur := by
  unfold hunkDelete at hm
  split at hm
  · exact mem_pyDelSlice hm
  · exact hm

theorem mem_applyHunk {a : List Char} {cur : List (List Char)} {h : Hunk}
    (hm : a ∈ applyHunk cur h) : a ∈ h.lines ∨ a ∈ cur := by
  unfold applyHunk at hm
  rcases mem_insertFrom _ _ _ _ hm with h' | h'
  · exact Or.inl h'
  · exact Or.inr (mem_hunkDelete h')

theorem mem_foldl_applyHunk {a : List Char} (hs : List Hunk) :
    ∀ (cur : List (List Char)), a ∈ hs.foldl applyHunk cur →
      a ∈ cur ∨ ∃ h ∈ hs, a ∈ h.lines := by
  induction hs with
  | nil =>
    intro cur h
    exact Or.inl h
  | cons hh t ih =>
    intro cur h
    simp only [List.foldl_cons] at h
    rcases ih _ h with h' | h'
    · rcases mem_applyHunk h' with h2 | h2
      · exact Or.inr ⟨hh, by simp, h2⟩
      · exact Or.inl h2
    · obtain ⟨hx, hmem, hl⟩ := h'
      exact Or.inr ⟨hx, by simp [hmem], hl⟩

theorem extractHunksLoop_no_break (ls : List (List Char)) :
    ∀ (inH : Bool) (ch : Option (Nat × Nat)) (al : List (List Char)) (hk : List Hunk),
    (∀ l ∈ ls, ∀ c ∈ l, isLineBreak c = false) →
    (∀ l ∈ al, ∀ c ∈ l, isLineBreak c = false) →
    (∀ h ∈ hk, ∀ l ∈ h.lines, ∀ c ∈ l, isLineBreak c = false) →
    ∀ h ∈ extractHunksLoop ls inH ch al hk, ∀ l ∈ h.lines, ∀ c ∈ l,
      isLineBreak c = false := by
  induction ls with
  | nil =>
    intro inH ch al hk _ hal hhk h hh
    cases ch with
    | some sc =>
      have hh' : h ∈ hk ++ [(⟨sc.1, sc.2, al⟩ : Hunk)] := hh
      rcases List.mem_append.mp hh' with h' | h'
      · exact hhk h h'
      · rw [List.mem_singleton] at h'
        subst h'
        exact hal
    | none => exact hhk h hh
  | cons line rest ih =>
    intro inH ch al hk hls hal hhk h hh
    have hline : ∀ c ∈ line, isLineBreak c = false := hls line (by simp)
    have hrest : ∀ l ∈ rest, ∀ c ∈ l, isLineBreak c = false :=
      fun l hl => hls l (by simp [hl])
    have htail : ∀ c ∈ line.tail, isLineBreak c = false :=
      fun c hc => hline c (List.mem_of_mem_tail hc)
    have hnil : ∀ l ∈ ([] : List (List Char)), ∀ c ∈ l, isLineBreak c = false := by
      intro l hl
      cases hl
    have hplus : ∀ l ∈ al ++ [line.tail], ∀ c ∈ l, isLineBreak c = false := by
      intro l hl
      rcases List.mem_append.mp hl with h2 | h2
      · exact hal l h2
      · rw [List.mem_singleton] at h2
        subst h2
        exact htail
    rw [extractHunksLoop] at hh
    cases hm : matchHunkHeader line with
    | some g =>
      rw [hm] at hh
      cases ch with
      | some sc =>
        refine ih false _ [] _ hrest hnil ?_ h hh
        intro h' hh'
        rcases List.mem_append.mp hh' with h2 | h2
        · exact hhk h' h2
        · rw [List.mem_singleton] at h2
          subst h2
          exact hal
      | none => exact ih false _ [] hk hrest hnil hhk h hh
    | none =>
      rw [hm] at hh
      by_cases h1 : inH = true
      · rw [if_pos h1] at hh
        exact ih inH ch al hk hrest hal hhk h hh
      · rw [if_neg h1] at hh
        by_cases h2 : (line.head? == some '+') = true
        · rw [if_pos h2] at hh
          exact ih inH ch (al ++ [line.tail]) hk hrest hplus hhk h hh
        · rw [if_neg h2] at hh
          by_cases h3 : (line.head? == some '-') = true
          · rw [if_pos h3] at hh
            exact ih inH ch al hk hrest hal hhk h hh
          · rw [if_neg h3] at hh
            by_cases h4 : (line.head? == some ' ') = true
            · rw [if_pos h4] at hh
              exact ih inH ch (al ++ [line.tail]) hk hrest hplus hhk h hh
            · rw [if_neg h4] at hh
              exact ih inH ch al hk hrest hal hhk h hh

theorem extractHunks_no_break (d : List Char) :
    ∀ h ∈ extractHunks d, ∀ l ∈ h.lines, ∀ c ∈ l, isLineBreak c = false := by
  unfold extractHunks
  exact extractHunksLoop_no_break (splitlines d) true none [] []
    (splitlines_no_break d) (by intro l hl; cases hl) (by intro h hh; cases hh)

theorem mem_joinLines {c : Char} : ∀ (ls : List (List Char)), c ∈ joinLines ls →
    c = '\n' ∨ ∃ l ∈ ls, c ∈ l := by
  intro ls
  induction ls with
  | nil =>
    intro h
    rw [joinLines] at h
    cases h
  | cons l t ih =>
    intro h
    rw [joinLines] at h
    split at h
    · exact Or.inr ⟨l, by simp, h⟩
    · rcases List.mem_append.mp h with h | h
      · exact Or.inr ⟨l, by simp, h⟩
      · rcases List.mem_cons.mp h with h | h
        · exact Or.inl h
        · rcases ih h with h | ⟨l', hl', hc⟩
          · exact Or.inl h
          · exact Or.inr ⟨l', by simp [hl'], hc⟩

/-! ## Claim C10 -/

/-- No carriage return occurs in what the write step produces, for any
current content and any patch: all lines come from `splitlines` (of the
content or of the diff), which strips every line-break character. -/
theorem writtenContent_no_cr (cc d : List Char) :
    '\r' ∉ writtenContent cc (parseUnifiedDiff (splitlines cc) d) := by
  intro hmem
  unfold writtenContent at hmem
  rcases List.mem_append.mp hmem with h | h
  · rcases mem_joinLines _ h with h | ⟨l, hl, hc⟩
    · exact absurd h (by decide)
    · unfold parseUnifiedDiff at hl
      rcases mem_foldl_applyHunk _ _ hl with h2 | ⟨hh, hhm, h2⟩
      · have h3 : isLineBreak '\r' = false := splitlines_no_break cc l h2 '\r' hc
        exact absurd h3 (by decide)
      · have h3 : isLineBreak '\r' = false :=
          extractHunks_no_break d hh (List.mem_reverse.mp hhm) l h2 '\r' hc
        exact absurd h3 (by decide)
  · split at h
    · rw [List.mem_singleton] at h
      exact absurd h (by decide)
    · cases h

/-- The write step as a function of the trailing-newline flag alone (same
statement as claim C4, for use in other proofs). -/
theorem writtenContent_join (cc : List Char) (nl : List (List Char)) :
    writtenContent cc nl =
      joinLines nl ++ (if endsWithNl cc then [ '\n'] else []) := by
  unfold writtenContent
  cases cc with
  | nil => simp [endsWithNl]
  | cons a t => simp

/-- A patch from which no hunks are extracted leaves the line list
unchanged. -/
theorem parseUnifiedDiff_of_no_hunks (cur : List (List Char)) (d : List Char)
    (h : extractHunks d = []) : parseUnifiedDiff cur d = cur := by
  unfold parseUnifiedDiff
  rw [h]
  rfl

/-- The universal-newlines translation of content whose line-break
characters are only LF and CR contains LF as its only line-break
character. -/
theorem univNewlinesGo_only_lf (s : List Char) : ∀ (b : Bool),
    (∀ c ∈ s, isLineBreak c = true → c = '\n' ∨ c = '\r') →
    ∀ c ∈ univNewlinesGo s b, isLineBreak c = true → c = '\n' := by
  induction s with
  | nil =>
    intro b _ c hc
    rw [univNewlinesGo] at hc
    cases hc
  | cons c rest ih =>
    intro b hs x hx hbx
    have hrest : ∀ c ∈ rest, isLineBreak c = true → c = '\n' ∨ c = '\r' :=
      fun c hc => hs c (by simp [hc])
    rw [univNewlinesGo] at hx
    by_cases h1 : (b && (c == '\n')) = true
    · rw [if_pos h1] at hx
      exact ih false hrest x hx hbx
    · rw [if_neg h1] at hx
      by_cases h2 : (c == '\r') = true
      · rw [if_pos h2] at hx
        rcases List.mem_cons.mp hx with h | h
        · exact h
        · exact ih true hrest x h hbx
      · rw [if_neg h2] at hx
        rcases List.mem_cons.mp hx with h | h
        · subst h
          rcases hs x (by simp) hbx with h | h
          · exact h
          · exact absurd (by rw [h]; rfl) h2
        · exact ih false hrest x h hbx

/-- `splitlines` of a nonempty input (or with a pending nonempty line) emits
at least one line. -/
theorem splitlinesGo_ne_nil (s : List Char) : ∀ (acc : List Char),
    s ≠ [] ∨ acc ≠ [] → splitlinesGo s false acc ≠ [] := by
  induction s with
  | nil =>
    intro acc hne
    cases acc with
    | nil =>
      rcases hne with h | h
      · exact absurd rfl h
      · exact absurd rfl h
    | cons a t =>
      rw [splitlinesGo]
      rw [if_neg (by simp)]
      exact List.cons_ne_nil _ _
  | cons c rest ih =>
    intro acc _
    rw [splitlinesGo]
    rw [if_neg (by simp)]
    by_cases hb : isLineBreak c = true
    · rw [if_pos hb]
      exact List.cons_ne_nil _ _
    · rw [if_neg hb]
      exact ih (acc ++ [c]) (Or.inr (by simp))

theorem endsWithNl_cons_cons (c1 c2 : Char) (rest : List Char) :
    endsWithNl (c1 :: c2 :: rest) = endsWithNl (c2 :: rest) := by
  unfold endsWithNl
  rw [List.getLast?_cons_cons]

/-- Joining the lines split from LF-only content and restoring its trailing
newline reconstructs the content exactly. -/
theorem joinLines_splitlinesGo (s : List Char) : ∀ (acc : List Char),
    (∀ c ∈ s, isLineBreak c = true → c = '\n') →
    joinLines (splitlinesGo s false acc) ++
        (if endsWithNl s then [ '\n'] else []) = acc ++ s := by
  induction s with
  | nil =>
    intro acc _
    rw [splitlinesGo]
    cases acc with
    | nil => rfl
    | cons a t =>
      rw [if_neg (by simp)]
      rw [joinLines]
      rw [if_pos (by rfl)]
      rw [if_neg (by decide)]
  | cons c rest ih =>
    intro acc hs
    have hrest : ∀ c ∈ rest, isLineBreak c = true → c = '\n' :=
      fun c hc => hs c (by simp [hc])
    rw [splitlinesGo, if_neg (by simp)]
    by_cases hb : isLineBreak c = true
    · have hcn : c = '\n' := hs c (by simp) hb
      subst hcn
      rw [if_pos hb]
      have hflag : (('\n' == '\r') : Bool) = false := rfl
      rw [hflag]
      cases rest with
      | nil =>
        rw [splitlinesGo, if_pos (by rfl), joinLines, if_pos (by rfl)]
        have he : endsWithNl [ '\n'] = true := rfl
        rw [he, if_pos rfl]
      | cons c2 r2 =>
        have hne : splitlinesGo (c2 :: r2) false [] ≠ [] :=
          splitlinesGo_ne_nil _ _ (Or.inl (List.cons_ne_nil c2 r2))
        rw [joinLines, if_neg (fun he => hne (List.isEmpty_iff.mp he)),
          endsWithNl_cons_cons]
        have hih := ih [] hrest
        rw [List.nil_append] at hih
        rw [List.append_assoc, List.cons_append, hih]
    · rw [if_neg hb]
      have hcne : c ≠ '\n' := by
        intro hcc
        exact hb (by rw [hcc]; rfl)
      have htr : endsWithNl (c :: rest) = endsWithNl rest := by
        cases rest with
        | nil =>
          unfold endsWithNl
          simp [hcne]
        | cons c2 r2 => exact endsWithNl_cons_cons c c2 r2
      rw [htr, ih (acc ++ [c]) hrest]
      simp

/-- Claim C10: a successful run of the built-in applier rewrites the target
file with LF line separators only (no carriage return occurs in the written
result, whatever the patch), and for every raw on-disk content whose line
terminators are CRLF, lone CR or LF, a zero-hunk patch leaves the written
result equal to the original content with each CRLF and lone CR replaced by
LF — text-mode reading already performs that translation, and the
split-join-append write step reconstructs the translated content
exactly. -/
theorem claim_C10 (raw fp d : List Char)
    (hstd : ∀ c ∈ raw, isLineBreak c = true → c = '\n' ∨ c = '\r')
    (hnh : extractHunks d = []) :
    (∀ d2, '\r' ∉ writtenContent (univNewlines raw)
        (parseUnifiedDiff (splitlines (univNewlines raw)) d2)) ∧
    (applyDiffManuallyWith (some raw) none none fp d).2 =
      some (univNewlines raw) := by
  constructor
  · exact fun d2 => writtenContent_no_cr (univNewlines raw) d2
  · have hred : (applyDiffManuallyWith (some raw) none none fp d).2 =
        some (writtenContent (univNewlines raw)
          (parseUnifiedDiff (splitlines (univNewlines raw)) d)) := rfl
    rw [hred, parseUnifiedDiff_of_no_hunks _ _ hnh, writtenContent_join]
    have honly : ∀ c ∈ univNewlines raw, isLineBreak c = true → c = '\n' :=
      univNewlinesGo_only_lf raw false hstd
    have hg := joinLines_splitlinesGo (univNewlines raw) [] honly
    rw [List.nil_append] at hg
    have hg' : joinLines (splitlines (univNewlines raw)) ++
        (if endsWithNl (univNewlines raw) then [ '\n'] else []) =
          univNewlines raw := hg
    rw [hg']

/-- Concrete instance of claim C10: raw content `"b\r"` with an empty patch
is read as `"b\n"` and written back as `"b\n"` — the trailing lone CR is
replaced by LF. -/
theorem claim_C10_witness :
    (∀ c ∈ c10wRaw, isLineBreak c = true → c = '\n' ∨ c = '\r') ∧
    extractHunks [] = [] ∧
    univNewlines c10wRaw = [ 'b', '\n'] ∧
    ((∀ d2, '\r' ∉ writtenContent (univNewlines c10wRaw)
        (parseUnifiedDiff (splitlines (univNewlines c10wRaw)) d2)) ∧
      (applyDiffManuallyWith (some c10wRaw) none none [] []).2 =
        some (univNewlines c10wRaw)) :=
  ⟨by decide, by decide, by decide,
    claim_C10 c10wRaw [] [] (by decide) (by decide)⟩

end UDiff
